import Mathlib

/-!
Shallow embedding of the core of the commit-agent CLI (TypeScript sources
`src/git.ts`, `src/agent.ts`, `src/tools.ts`, `src/index.ts`) and proofs
about its diff compactor, tool registry, orchestrator routing and response
sanitizer.  Strings are modelled as Lean `String`/`List Char`; JavaScript
whitespace, case mapping and regular-expression behaviour are modelled over
ASCII.  Fallible collaborator calls (file system, subprocesses) are modelled
as `Except String` values supplied as inputs; a thrown JS exception is an
`Except.error`.
-/

/-- ASCII model of the whitespace characters recognised by JavaScript
`String.prototype.trim` and the regex class `\s`. -/
def isJsWs (c : Char) : Bool := c = ' ' || c = '\t' || c = '\n' || c = '\r'

/-- Table of ASCII uppercase letters with their lowercase forms, used to
model JavaScript `String.prototype.toLowerCase` on ASCII input. -/
def lowerTable : List (Char × Char) :=
  [('A', 'a'), ('B', 'b'), ('C', 'c'), ('D', 'd'), ('E', 'e'), ('F', 'f'),
   ('G', 'g'), ('H', 'h'), ('I', 'i'), ('J', 'j'), ('K', 'k'), ('L', 'l'),
   ('M', 'm'), ('N', 'n'), ('O', 'o'), ('P', 'p'), ('Q', 'q'), ('R', 'r'),
   ('S', 's'), ('T', 't'), ('U', 'u'), ('V', 'v'), ('W', 'w'), ('X', 'x'),
   ('Y', 'y'), ('Z', 'z')]

/-- ASCII model of JavaScript lower-casing of a single character. -/
def jsToLower (c : Char) : Char :=
  ((lowerTable.find? (fun q => q.1 = c)).map Prod.snd).getD c

/-- JavaScript `String.prototype.trim` on a character list: drop leading and
trailing whitespace. -/
def jsTrim (l : List Char) : List Char :=
  List.rdropWhile isJsWs (l.dropWhile isJsWs)

/-- JavaScript `split('\n')` on a character list.  The empty string splits to
one empty piece, matching JS semantics. -/
def splitLines : List Char → List (List Char)
  | [] => [[]]
  | c :: rest =>
    if c = '\n' then [] :: splitLines rest
    else
      match splitLines rest with
      | [] => [[c]]
      | l :: ls => (c :: l) :: ls

/-- JavaScript `join('\n')` on a list of lines. -/
def joinLines : List (List Char) → List Char
  | [] => []
  | [l] => l
  | l :: ls => l ++ '\n' :: joinLines ls

/-- JavaScript `Array.prototype.findIndex`, returning `none` instead of -1. -/
def findIdxJs {α : Type} (p : α → Bool) : List α → Option Nat
  | [] => none
  | a :: as => if p a then some 0 else (findIdxJs p as).map (· + 1)

/-- JavaScript `String.prototype.includes` on character lists: the needle
occurs contiguously somewhere in the haystack. -/
def listIncludes (needle : List Char) : List Char → Bool
  | [] => needle.isEmpty
  | c :: rest => needle.isPrefixOf (c :: rest) || listIncludes needle rest

/-- JavaScript `p.includes('..')`, the traversal test in `validatePath`
(agent.ts line 144 and tools.ts line 8). -/
def hasDotDot (p : String) : Bool := listIncludes "..".data p.data

/-- JavaScript `Math.round(size / 1024)` for a nonnegative byte count,
as used in the oversize-file refusal message. -/
def roundKB (size : Nat) : Nat := (2 * size + 1024) / 2048

/-! ## Diff compactor (`src/git.ts`, `getStagedDiffSmart`, lines 38-87)

The four collaborator queries (name-status file list, stat summary, the
1-line-context diff and the 0-line-context diff) are modelled as the fields
of `DiffQueries`; each is the `stdout` of an `execa` call with
`reject: false`, hence a plain string. -/

structure DiffQueries where
  fileList : String
  stats : String
  diff1 : String
  diff0 : String

/-- Token estimate `diff.length / 4` (git.ts line 57); JavaScript division is
exact on numbers, so the estimate is a rational. -/
def estimatedTokens (diff : String) : ℚ := (diff.length : ℚ) / 4

/-- The medium-diff (1-line-context, Wide) payload of `getStagedDiffSmart`
(git.ts lines 79-86). -/
def widePayload (q : DiffQueries) : String :=
  "FILES CHANGED:\n" ++ q.fileList ++ "\n\nSTATS:\n" ++ q.stats ++
    "\n\nDIFF:\n" ++ q.diff1

/-- The large-diff (0-line-context, Narrow) payload of `getStagedDiffSmart`
(git.ts lines 66-75). -/
def narrowPayload (q : DiffQueries) : String :=
  "FILES CHANGED (" ++ toString (q.fileList.splitOn "\n").length ++
    " files):\n" ++ q.fileList ++ "\n\nSTATS:\n" ++ q.stats ++
    "\n\nDIFF (function signatures only - large changeset):\n" ++ q.diff0 ++
    "\n\nNote: This is a large changeset. The diff shows only changed lines without context."

/-- `getStagedDiffSmart` (git.ts lines 38-87) as a function of its four
collaborator query results. -/
def getStagedDiffSmart (q : DiffQueries) : String :=
  if q.fileList = "" then ""
  else if estimatedTokens q.diff1 > 2000 then narrowPayload q
  else widePayload q

/-! ## Session controller staged-changes gate (`src/index.ts`, lines 898-933)

`main` fetches the smart diff; when it is empty it either exits (user
declines to stage, or guided staging stages nothing) or re-fetches after
guided staging and exits if the diff is still empty.  The value carried
forward to `generateCommitMessage` is returned as `some`. -/

def mainStagedCheck (diff1 : String) (userWantsStage : Bool)
    (stagingWorked : Bool) (diff2 : String) : Option String :=
  if diff1 ≠ "" then some diff1
  else if userWantsStage = false then none
  else if stagingWorked = false then none
  else if diff2 = "" then none
  else some diff2

/-! ## Tool registry (`src/agent.ts`, lines 143-308)

Each tool handler wraps its body in `try`/`catch` and converts any thrown
error into a human-readable string result.  The body is modelled as an
`Except String String` and the catch as `catchToMsg`. -/

/-- The `catch (error) { return prefixText + error.message }` wrapper every
tool handler uses. -/
def catchToMsg (pre : String) (x : Except String String) :
    Except String String :=
  match x with
  | Except.ok s => Except.ok s
  | Except.error e => Except.ok (pre ++ e)

/-- Refusal message for files over the 50,000-byte ceiling
(agent.ts line 158). -/
def sizeRefusal (filePath : String) (size : Nat) : String :=
  "File " ++ filePath ++ " is too large (" ++ toString (roundKB size) ++
    "KB). Please be more specific about what you need from this file, or ask about a smaller file."

/-- Truncation of content over 10,000 characters with the remaining-character
marker (agent.ts line 166). -/
def truncate10k (content : String) : String :=
  content.take 10000 ++ "\n\n... [File truncated - " ++
    toString (content.length - 10000) ++ " more characters]"

/-- Body of the `read_file` tool (agent.ts lines 149-169): validate the path,
stat the file, refuse above 50,000 bytes, read, truncate above 10,000
characters. -/
def readFileBody (filePath : String) (statRes : Except String Nat)
    (readRes : Except String String) : Except String String :=
  if hasDotDot filePath then Except.error "Cannot access parent directories"
  else
    match statRes with
    | Except.error e => Except.error e
    | Except.ok size =>
      if size > 50000 then Except.ok (sizeRefusal filePath size)
      else if hasDotDot filePath then
        Except.error "Cannot access parent directories"
      else
        match readRes with
        | Except.error e => Except.error e
        | Except.ok content =>
          if content.length > 10000 then Except.ok (truncate10k content)
          else Except.ok content

/-- The registered `read_file` handler (agent.ts lines 148-181). -/
def readFileHandler (filePath : String) (statRes : Except String Nat)
    (readRes : Except String String) : Except String String :=
  catchToMsg ("Error reading file " ++ filePath ++ ": ")
    (readFileBody filePath statRes readRes)

/-- One entry of the `list_dir` result (agent.ts lines 188-195): the inner
per-entry `try`/`catch` falls back to the bare name when `stat` fails. -/
def listDirEntry (dirPath f : String)
    (statF : String → Except String Bool) : String :=
  match statF (dirPath ++ "/" ++ f) with
  | Except.ok isDir => f ++ (if isDir then " (DIR)" else " (FILE)")
  | Except.error _ => f

/-- Body of the `list_dir` tool (agent.ts lines 184-196). -/
def listDirBody (dirPath : String)
    (readdirRes : Except String (List String))
    (statF : String → Except String Bool) : Except String String :=
  if hasDotDot dirPath then Except.error "Cannot access parent directories"
  else
    match readdirRes with
    | Except.error e => Except.error e
    | Except.ok files =>
      Except.ok
        (String.intercalate "\n" (files.map (fun f => listDirEntry dirPath f statF)))

/-- The registered `list_dir` handler (agent.ts lines 183-208). -/
def listDirHandler (dirPath : String)
    (readdirRes : Except String (List String))
    (statF : String → Except String Bool) : Except String String :=
  catchToMsg ("Error listing directory " ++ dirPath ++ ": ")
    (listDirBody dirPath readdirRes statF)

/-- A commit of the underlying repository, with the fields `git log` can
render. -/
structure Commit where
  hash : String
  author : String
  subject : String

/-- Modelled from the spec: the repository-introspection collaborator
`git log -n k --pretty=format:%s` (invoked by the `git_commit_history`
tool, agent.ts line 215) renders the subject lines of the `k` most recent
commits, one per line; it is external to the repository's own sources. -/
def gitLogSubjects (repo : List Commit) (n : Nat) : String :=
  String.intercalate "\n" ((repo.take n).map Commit.subject)

/-- The registered `git_commit_history` handler (agent.ts lines 210-228):
the requested count is clamped with `Math.min(count, 5)` before the log
query, and an empty result is replaced by a fallback message. -/
def gitCommitHistoryHandler (gitLogF : Nat → Except String String)
    (count : Nat) : Except String String :=
  catchToMsg "Error getting commit history: "
    (match gitLogF (min count 5) with
     | Except.error e => Except.error e
     | Except.ok out =>
       Except.ok (if out = "" then "No commit history found" else out))

/-- The registered `git_staged_files` handler (agent.ts lines 230-245). -/
def gitStagedFilesHandler (execaRes : Except String String) :
    Except String String :=
  catchToMsg "Error getting staged files: "
    (match execaRes with
     | Except.error e => Except.error e
     | Except.ok out => Except.ok (if out = "" then "No staged files" else out))

/-- The registered `git_unstaged_files` handler (agent.ts lines 247-262). -/
def gitUnstagedFilesHandler (execaRes : Except String String) :
    Except String String :=
  catchToMsg "Error getting unstaged files: "
    (match execaRes with
     | Except.error e => Except.error e
     | Except.ok out =>
       Except.ok (if out = "" then "No unstaged changes" else out))

/-- The registered `git_untracked_files` handler (agent.ts lines 264-279). -/
def gitUntrackedFilesHandler (execaRes : Except String String) :
    Except String String :=
  catchToMsg "Error getting untracked files: "
    (match execaRes with
     | Except.error e => Except.error e
     | Except.ok out =>
       Except.ok (if out = "" then "No untracked files" else out))

/-- The registered `git_show_file_diff` handler (agent.ts lines 281-298);
the file path only selects the diff the `execa` collaborator renders. -/
def gitShowFileDiffHandler (_filePath : String)
    (execaRes : Except String String) : Except String String :=
  catchToMsg "Error getting file diff: "
    (match execaRes with
     | Except.error e => Except.error e
     | Except.ok out =>
       Except.ok (if out = "" then "No changes in this file" else out))

/-- The catch wrapper never leaves an exception unhandled. -/
theorem catchToMsg_ok (pre : String) (x : Except String String) :
    ∃ s, catchToMsg pre x = Except.ok s := by
  cases x with
  | ok s => exact ⟨s, rfl⟩
  | error e => exact ⟨pre ++ e, rfl⟩

/-! ## Claim C1: compactor context-level boundary -/

/-- C1 (amended): for every non-empty file list, `getStagedDiffSmart` yields
the Wide (1-line-context) payload when the token estimate of the
1-line-context diff is at most 2000, and the Narrow (0-line-context) payload
when the estimate is strictly above 2000.  (The original claim put the
boundary itself on the Narrow side; the code's test is strict `> 2000`.) -/
theorem c1_compactor_boundary (q : DiffQueries) (h : q.fileList ≠ "") :
    (estimatedTokens q.diff1 ≤ 2000 → getStagedDiffSmart q = widePayload q) ∧
    (2000 < estimatedTokens q.diff1 → getStagedDiffSmart q = narrowPayload q) := by
  constructor
  · intro hle
    simp [getStagedDiffSmart, h, not_lt.mpr hle]
  · intro hgt
    simp [getStagedDiffSmart, h, hgt]

/-- An 8000-character diff, whose token estimate is exactly 2000. -/
def bigDiff : String := String.mk (List.replicate 8000 'a')

/-- C1 (counterexample): with a non-empty file list and the 1-line-context
diff at exactly 2000 estimated tokens — "at or above 2000" in the claim's
words — the compactor yields the Wide payload, not the Narrow payload the
claim requires. -/
theorem c1_compactor_boundary_counterexample :
    (DiffQueries.mk "a.txt" "st" bigDiff "d0").fileList ≠ "" ∧
    2000 ≤ estimatedTokens (DiffQueries.mk "a.txt" "st" bigDiff "d0").diff1 ∧
    getStagedDiffSmart (DiffQueries.mk "a.txt" "st" bigDiff "d0") =
      widePayload (DiffQueries.mk "a.txt" "st" bigDiff "d0") ∧
    widePayload (DiffQueries.mk "a.txt" "st" bigDiff "d0") ≠
      narrowPayload (DiffQueries.mk "a.txt" "st" bigDiff "d0") := by
  have hlen : bigDiff.length = 8000 := by
    show (List.replicate 8000 'a').length = 8000
    exact List.length_replicate 8000 'a'
  have hest : estimatedTokens bigDiff = 2000 := by
    unfold estimatedTokens
    rw [hlen]
    norm_num
  refine ⟨by decide, ?_, ?_, ?_⟩
  · show (2000 : ℚ) ≤ estimatedTokens bigDiff
    rw [hest]
  · show getStagedDiffSmart _ = widePayload _
    unfold getStagedDiffSmart
    rw [if_neg (by decide)]
    rw [show estimatedTokens (DiffQueries.mk "a.txt" "st" bigDiff "d0").diff1
          = estimatedTokens bigDiff from rfl, hest]
    norm_num
  · decide

/-- C1 (witness): a small diff (estimate well under 2000) yields the Wide
payload. -/
theorem c1_compactor_boundary_witness :
    getStagedDiffSmart (DiffQueries.mk "a.txt" "st" "diff" "d0") =
      widePayload (DiffQueries.mk "a.txt" "st" "diff" "d0") :=
  (c1_compactor_boundary (DiffQueries.mk "a.txt" "st" "diff" "d0")
    (by decide)).1 (by norm_num [estimatedTokens, String.length])

/-! ## Claim C4: read_file size ceiling and truncation -/

/-- C4: for a file over 50,000 bytes, `read_file` returns the size-refusal
string — independent of the file content — and for a file of at most
50,000 bytes it returns the content, truncated to the first 10,000
characters with the remaining-character marker when longer. -/
theorem c4_read_file_limits (p : String) (size : Nat) (content : String)
    (hp : hasDotDot p = false) :
    (size > 50000 →
      readFileHandler p (Except.ok size) (Except.ok content) =
        Except.ok (sizeRefusal p size) ∧
      ∀ other : String,
        readFileHandler p (Except.ok size) (Except.ok other) =
          Except.ok (sizeRefusal p size)) ∧
    (size ≤ 50000 → content.length ≤ 10000 →
      readFileHandler p (Except.ok size) (Except.ok content) =
        Except.ok content) ∧
    (size ≤ 50000 → content.length > 10000 →
      readFileHandler p (Except.ok size) (Except.ok content) =
        Except.ok (truncate10k content)) := by
  refine ⟨fun hs => ⟨?_, fun other => ?_⟩, fun hs hc => ?_, fun hs hc => ?_⟩
  · simp [readFileHandler, readFileBody, catchToMsg, hp, hs]
  · simp [readFileHandler, readFileBody, catchToMsg, hp, hs]
  · simp [readFileHandler, readFileBody, catchToMsg, hp, not_lt.mpr hs,
      not_lt.mpr hc]
  · simp [readFileHandler, readFileBody, catchToMsg, hp, not_lt.mpr hs, hc]

/-- C4 (witness): a 50,001-byte file is refused; a 50,000-byte file with
short content is returned verbatim. -/
theorem c4_read_file_limits_witness :
    readFileHandler "a.txt" (Except.ok 50001) (Except.ok "hello") =
      Except.ok (sizeRefusal "a.txt" 50001) ∧
    readFileHandler "a.txt" (Except.ok 50000) (Except.ok "hello") =
      Except.ok "hello" :=
  ⟨((c4_read_file_limits "a.txt" 50001 "hello" (by decide)).1
      (by norm_num)).1,
   (c4_read_file_limits "a.txt" 50000 "hello" (by decide)).2.1
      (by norm_num) (by decide)⟩

/-! ## Claim C5: commit-history clamp -/

/-- C5: `git_commit_history` passes `min count 5 ≤ 5` to the log query, so
at most 5 commits are rendered, and what is rendered is the subject line of
each taken commit — no hashes, no authors. -/
theorem c5_commit_history_clamp (repo : List Commit) (count : Nat) :
    min count 5 ≤ 5 ∧
    (repo.take (min count 5)).length ≤ 5 ∧
    gitLogSubjects repo (min count 5) =
      String.intercalate "\n" ((repo.take (min count 5)).map Commit.subject) ∧
    gitCommitHistoryHandler (fun n => Except.ok (gitLogSubjects repo n)) count =
      Except.ok (if gitLogSubjects repo (min count 5) = ""
                 then "No commit history found"
                 else gitLogSubjects repo (min count 5)) := by
  refine ⟨min_le_right _ _, ?_, rfl, rfl⟩
  have h := List.length_take (min count 5) repo
  omega

/-! ## Claim C6: tool handlers never raise -/

/-- C6: every registered tool handler — read_file, list_dir,
git_commit_history, git_staged_files, git_unstaged_files,
git_untracked_files, git_show_file_diff — returns an `ok` string result
(success payload or human-readable error text) for every input and every
collaborator outcome; no exception escapes a handler. -/
theorem c6_handlers_never_raise :
    (∀ (p : String) (statRes : Except String Nat)
        (readRes : Except String String),
      ∃ s, readFileHandler p statRes readRes = Except.ok s) ∧
    (∀ (d : String) (readdirRes : Except String (List String))
        (statF : String → Except String Bool),
      ∃ s, listDirHandler d readdirRes statF = Except.ok s) ∧
    (∀ (gitLogF : Nat → Except String String) (count : Nat),
      ∃ s, gitCommitHistoryHandler gitLogF count = Except.ok s) ∧
    (∀ r : Except String String, ∃ s, gitStagedFilesHandler r = Except.ok s) ∧
    (∀ r : Except String String, ∃ s, gitUnstagedFilesHandler r = Except.ok s) ∧
    (∀ r : Except String String, ∃ s, gitUntrackedFilesHandler r = Except.ok s) ∧
    (∀ (p : String) (r : Except String String),
      ∃ s, gitShowFileDiffHandler p r = Except.ok s) :=
  ⟨fun _ _ _ => catchToMsg_ok _ _, fun _ _ _ => catchToMsg_ok _ _,
   fun _ _ => catchToMsg_ok _ _, fun _ => catchToMsg_ok _ _,
   fun _ => catchToMsg_ok _ _, fun _ => catchToMsg_ok _ _,
   fun _ _ => catchToMsg_ok _ _⟩

/-! ## Claim C8: empty file list means empty bundle, no orchestration -/

/-- C8: when the name-status file list is empty the compactor returns the
empty bundle, and the session controller's staged-changes gate never hands
an empty diff to `generateCommitMessage`: every diff it carries forward is
non-empty. -/
theorem c8_empty_bundle_gate :
    (∀ q : DiffQueries, q.fileList = "" → getStagedDiffSmart q = "") ∧
    (∀ (d1 : String) (a b : Bool) (d2 d : String),
      mainStagedCheck d1 a b d2 = some d → d ≠ "") := by
  constructor
  · intro q h
    simp [getStagedDiffSmart, h]
  · intro d1 a b d2 d h
    unfold mainStagedCheck at h
    split_ifs at h with h1 h2 h3 h4 <;> simp_all

/-- C8 (witness): the empty file list yields the empty bundle, and a
non-empty staged diff is carried forward unchanged (hence non-empty). -/
theorem c8_empty_bundle_gate_witness :
    getStagedDiffSmart (DiffQueries.mk "" "st" "d" "e") = "" ∧
    ("x" : String) ≠ "" :=
  ⟨c8_empty_bundle_gate.1 (DiffQueries.mk "" "st" "d" "e") rfl,
   c8_empty_bundle_gate.2 "x" false false "" "x" rfl⟩

/-! ## Claim C9: traversal paths are rejected -/

/-- C9: for every path containing the substring "..", read_file and
list_dir return the traversal error string — never file or directory
contents — regardless of what the file system would have answered. -/
theorem c9_traversal_reject (p : String) (hp : hasDotDot p = true)
    (statRes : Except String Nat) (readRes : Except String String)
    (readdirRes : Except String (List String))
    (statF : String → Except String Bool) :
    readFileHandler p statRes readRes =
      Except.ok ("Error reading file " ++ p ++ ": " ++
        "Cannot access parent directories") ∧
    listDirHandler p readdirRes statF =
      Except.ok ("Error listing directory " ++ p ++ ": " ++
        "Cannot access parent directories") := by
  constructor
  · simp [readFileHandler, readFileBody, catchToMsg, hp, String.append_assoc]
  · simp [listDirHandler, listDirBody, catchToMsg, hp, String.append_assoc]

/-- C9 (witness): "notes..txt" contains ".." without being a traversal
segment, and is still rejected by read_file. -/
theorem c9_traversal_reject_witness :
    readFileHandler "notes..txt" (Except.ok 5) (Except.ok "content") =
      Except.ok ("Error reading file " ++ "notes..txt" ++ ": " ++
        "Cannot access parent directories") :=
  (c9_traversal_reject "notes..txt" (by decide) (Except.ok 5)
    (Except.ok "content") (Except.ok []) (fun _ => Except.ok false)).1

/-! ## Response sanitizer (`src/agent.ts`, lines 54-57 and 107-134)

`generateCommitMessage` post-processes the terminal model content: trim,
strip a preamble regex, strip code-fence opener/closer regexes, optionally
re-anchor on the first conventional-commit line, trim again.  The three
regexes are modelled character-exactly over ASCII. -/

/-- The commit preferences consumed by the sanitizer (agent.ts lines 54-57). -/
inductive CommitStyle
  | concise
  | descriptive
deriving DecidableEq

structure CommitPreferences where
  useConventionalCommits : Bool
  commitMessageStyle : CommitStyle

/-- The alternatives of the preamble regex
`^(?:Here is|Here's|Based on|Looking at|This is|The commit message is|Commit message)`
(agent.ts line 112).  No alternative is a prefix of another, so a JS match
picks the unique alternative that matches. -/
def preambleOpeners : List (List Char) :=
  (["Here is", "Here's", "Based on", "Looking at", "This is",
    "The commit message is", "Commit message"].map String.data)

/-- Case-insensitive prefix test, modelling a regex literal under the `i`
flag. -/
def ciIsPrefixOf : List Char → List Char → Bool
  | [], _ => true
  | _ :: _, [] => false
  | a :: as, b :: bs => (jsToLower a == jsToLower b) && ciIsPrefixOf as bs

/-- The remainder of the input after the preamble opener that matches at
position 0, if any. -/
def matchOpenerRem (l : List Char) : Option (List Char) :=
  (preambleOpeners.find? (fun o => ciIsPrefixOf o l)).map
    (fun o => l.drop o.length)

/-- The lazy `.*?:` of the preamble regex: scan for the first colon, failing
at a line terminator (JS `.` does not match `\n` or `\r`); on success return
what follows the colon. -/
def afterFirstColonInLine : List Char → Option (List Char)
  | [] => none
  | c :: rest =>
    if c = ':' then some rest
    else if c = '\n' ∨ c = '\r' then none
    else afterFirstColonInLine rest

/-- `content.replace(/^(?:Here is|…|Commit message).*?:\s*‍/i, '')`
(agent.ts lines 112, 117-119): remove the opener, the rest of the line up to
and including the first colon, and the following whitespace; if the regex
does not match — no opener at position 0, or no colon before a line
terminator — the content is unchanged. -/
def stripPreamble (l : List Char) : List Char :=
  match matchOpenerRem l with
  | none => l
  | some r =>
    match afterFirstColonInLine r with
    | none => l
    | some r2 => r2.dropWhile isJsWs

/-- Three backtick characters, the code-fence delimiter. -/
def fence : List Char := "```".data

/-- JS regex `\w`, i.e. `[A-Za-z0-9_]`. -/
def isWordChar (c : Char) : Bool := c.isAlphanum || c = '_'

/-- `content.replace(/^```[\w]*\n?/, '')` (agent.ts line 113). -/
def stripFenceOpen (l : List Char) : List Char :=
  if fence.isPrefixOf l then
    match (l.drop 3).dropWhile isWordChar with
    | '\n' :: r2 => r2
    | r => r
  else l

/-- `content.replace(/\n?```$/, '')` (agent.ts line 114): this regex can only
match a suffix, preferring to take the optional newline. -/
def stripFenceClose (l : List Char) : List Char :=
  if ('\n' :: fence).isSuffixOf l then l.take (l.length - 4)
  else if fence.isSuffixOf l then l.take (l.length - 3)
  else l

/-- The conventional-commit markers searched for by the extraction step
(agent.ts line 124). -/
def convTags : List (List Char) :=
  (["feat:", "fix:", "chore:", "docs:", "style:", "refactor:", "test:",
    "perf:", "ci:", "build:", "revert:"].map String.data)

/-- `line.trim().toLowerCase().startsWith(tag)` for some tag
(agent.ts lines 125-127). -/
def isConvLine (l : List Char) : Bool :=
  convTags.any (fun tag => tag.isPrefixOf ((jsTrim l).map jsToLower))

/-- The conventional-commit extraction step (agent.ts lines 122-132): when
conventional commits are enabled and there are more than 3 lines, locate the
first conventional line; if its index is positive, keep only the lines from
it on, re-joined and trimmed. -/
def extractConv (conv : Bool) (l : List Char) : List Char :=
  let lines := splitLines l
  if 3 < lines.length ∧ conv = true then
    match findIdxJs isConvLine lines with
    | some idx =>
      if 0 < idx then jsTrim (joinLines (lines.drop idx)) else l
    | none => l
  else l

/-- The three pattern-strip replacements, applied in source order
(agent.ts lines 111-119). -/
def sanitizePatterns (l : List Char) : List Char :=
  stripFenceClose (stripFenceOpen (stripPreamble l))

/-- The whole sanitizer on character lists: trim, strip patterns, extract,
trim (agent.ts lines 107-134). -/
def sanitizeList (conv : Bool) (l : List Char) : List Char :=
  jsTrim (extractConv conv (sanitizePatterns (jsTrim l)))

/-- The response sanitizer of `generateCommitMessage`. -/
def sanitize (prefs : CommitPreferences) (s : String) : String :=
  String.mk (sanitizeList prefs.useConventionalCommits s.data)

/-! ## Orchestrator routing (`src/agent.ts`, lines 26-52)

The LangGraph state machine: node `agent` invokes the model and appends its
message; `shouldContinue` routes to `tools` when the most recent message
carries tool calls (the legacy `additional_kwargs.tool_calls` field — absent
for messages produced by the model port, which populates only `tool_calls` —
or a non-empty `tool_calls` array), otherwise to the terminal node, whose
answer is the last message's content (agent.ts lines 104-105). -/

inductive MsgRole
  | system
  | user
  | assistant
  | toolResult
deriving DecidableEq

structure ToolCallRequest where
  name : String
  args : String

structure ChatMsg where
  role : MsgRole
  content : String
  additionalKwargsToolCalls : Option (List ToolCallRequest)
  toolCalls : List ToolCallRequest

inductive GraphNode
  | agent
  | tools
  | terminal
deriving DecidableEq

/-- `shouldContinue` (agent.ts lines 33-40): JS truthiness of
`additional_kwargs.tool_calls` is presence of the field, and
`tool_calls?.length > 0` is non-emptiness of the array. -/
def shouldContinue (messages : List ChatMsg) : GraphNode :=
  match messages.getLast? with
  | some m =>
    if m.additionalKwargsToolCalls.isSome = true ∨ 0 < m.toolCalls.length
    then GraphNode.tools
    else GraphNode.terminal
  | none => GraphNode.terminal

/-- The content `generateCommitMessage` reads from the terminal state
(agent.ts lines 104-105). -/
def terminalContent (messages : List ChatMsg) : Option String :=
  if shouldContinue messages = GraphNode.terminal then
    (messages.getLast?).map (fun m => m.content)
  else none

/-! ## Claim C3: agent routing -/

/-- C3: in every orchestrator state whose most recent message is an
Assistant message carrying zero tool-call requests (and, as the model port
guarantees, no legacy kwargs tool-call field), the router goes from AGENT
straight to the terminal node and the terminal answer is that message's
content; with one or more tool-call requests it goes to TOOLS. -/
theorem c3_agent_routing (ms : List ChatMsg) (m : ChatMsg)
    (_hrole : m.role = MsgRole.assistant)
    (hkw : m.additionalKwargsToolCalls = none) :
    (m.toolCalls = [] →
      shouldContinue (ms ++ [m]) = GraphNode.terminal ∧
      terminalContent (ms ++ [m]) = some m.content) ∧
    (m.toolCalls ≠ [] → shouldContinue (ms ++ [m]) = GraphNode.tools) := by
  have hlast : (ms ++ [m]).getLast? = some m := List.getLast?_concat ms
  constructor
  · intro hempty
    have h1 : shouldContinue (ms ++ [m]) = GraphNode.terminal := by
      simp [shouldContinue, hlast, hkw, hempty]
    exact ⟨h1, by simp [terminalContent, h1, hlast]⟩
  · intro hne
    have hpos : 0 < m.toolCalls.length := List.length_pos.mpr hne
    simp [shouldContinue, hlast, hpos]

/-- C3 (witness): a lone assistant message without tool calls terminates
with its content as the answer. -/
theorem c3_agent_routing_witness :
    shouldContinue ([] ++ [ChatMsg.mk MsgRole.assistant "feat: add x" none []]) =
      GraphNode.terminal ∧
    terminalContent ([] ++ [ChatMsg.mk MsgRole.assistant "feat: add x" none []]) =
      some "feat: add x" :=
  (c3_agent_routing [] (ChatMsg.mk MsgRole.assistant "feat: add x" none [])
    rfl rfl).1 rfl

/-! ## Claim C7: conventional-commit line extraction -/

/-- C7: with conventional commits enabled and more than 3 lines remaining,
the first line whose trimmed lower-cased text starts with a conventional
marker is located and, when its index is positive, every line before it is
discarded; on the spec's example input the sanitizer output starts with
"fix: correct off-by-one". -/
theorem c7_conv_extraction :
    (∀ (prefs : CommitPreferences) (l : List Char) (idx : Nat),
      prefs.useConventionalCommits = true →
      3 < (splitLines l).length →
      findIdxJs isConvLine (splitLines l) = some idx →
      0 < idx →
      extractConv prefs.useConventionalCommits l =
        jsTrim (joinLines ((splitLines l).drop idx))) ∧
    sanitize (CommitPreferences.mk true CommitStyle.concise)
        "Here's a message:\nSome explanation.\nMore text.\nfix: correct off-by-one\nbody line" =
      "fix: correct off-by-one\nbody line" ∧
    List.isPrefixOf "fix: correct off-by-one".data
      (sanitize (CommitPreferences.mk true CommitStyle.concise)
        "Here's a message:\nSome explanation.\nMore text.\nfix: correct off-by-one\nbody line").data
      = true := by
  refine ⟨?_, by decide, by decide⟩
  intro prefs l idx hconv hlen hfind hpos
  rw [hconv]
  simp [extractConv, hlen, hfind, hpos]

/-- C7 (witness): a 5-line input whose fourth line is the first
conventional one is re-anchored on that line. -/
theorem c7_conv_extraction_witness :
    extractConv (CommitPreferences.mk true CommitStyle.concise).useConventionalCommits
        "a\nb\nc\nfix: done\ne".data =
      jsTrim (joinLines ((splitLines "a\nb\nc\nfix: done\ne".data).drop 3)) :=
  c7_conv_extraction.1 (CommitPreferences.mk true CommitStyle.concise)
    "a\nb\nc\nfix: done\ne".data 3 rfl (by decide) (by decide) (by decide)

/-! ## Claim C10: preamble strip requires a first-line colon -/

/-- The JS regex `.` in the preamble pattern cannot cross the first line:
this predicate selects the characters before the first newline. -/
def notNl (c : Char) : Bool := !(c == '\n')

/-- A successful case-insensitive prefix match fixes the lower-casing of the
matched region and bounds its length. -/
theorem ciIsPrefixOf_spec : ∀ (o l : List Char), ciIsPrefixOf o l = true →
    (l.take o.length).map jsToLower = o.map jsToLower ∧ o.length ≤ l.length := by
  intro o
  induction o with
  | nil => intro l _; simp
  | cons a as ih =>
    intro l h
    cases l with
    | nil => simp [ciIsPrefixOf] at h
    | cons b bs =>
      simp only [ciIsPrefixOf, Bool.and_eq_true, beq_iff_eq] at h
      obtain ⟨h1, h2⟩ := h
      obtain ⟨ihm, ihl⟩ := ih bs h2
      constructor
      · simp [List.take_succ_cons, ihm, h1]
      · simpa using Nat.succ_le_succ ihl

/-- A character whose lower-casing is not the image of any uppercase letter
is fixed by `jsToLower` pre-images. -/
theorem jsToLower_eq_of_notin (x : Char) (hx : ∀ q ∈ lowerTable, q.2 ≠ x)
    (c : Char) (h : jsToLower c = x) : c = x := by
  unfold jsToLower at h
  cases hfind : lowerTable.find? (fun q => q.1 = c) with
  | none => rw [hfind] at h; simpa using h
  | some q =>
    rw [hfind] at h
    simp at h
    exact absurd h (hx q (List.mem_of_find?_eq_some hfind))

/-- `takeWhile` passes over a block whose members all satisfy the
predicate. -/
theorem takeWhile_append_all {α : Type} (p : α → Bool) :
    ∀ (l₁ l₂ : List α), (∀ c ∈ l₁, p c = true) →
      (l₁ ++ l₂).takeWhile p = l₁ ++ l₂.takeWhile p := by
  intro l₁
  induction l₁ with
  | nil => intro l₂ _; simp
  | cons a as ih =>
    intro l₂ h
    have ha : p a = true := h a (List.mem_cons_self a as)
    simp only [List.cons_append, List.takeWhile_cons, ha, if_true]
    rw [ih l₂ (fun c hc => h c (List.mem_cons_of_mem a hc))]

/-- The lazy colon scan fails when the first line holds no colon. -/
theorem afterFirstColonInLine_none :
    ∀ (r : List Char), (∀ c ∈ r.takeWhile notNl, c ≠ ':') →
      afterFirstColonInLine r = none := by
  intro r
  induction r with
  | nil => intro _; rfl
  | cons c rest ih =>
    intro h
    by_cases hc : c = ':'
    · subst hc
      have hmem : (':' : Char) ∈ List.takeWhile notNl (':' :: rest) := by
        simp [List.takeWhile_cons, notNl]
      exact absurd rfl (h ':' hmem)
    · by_cases hn : c = '\n' ∨ c = '\r'
      · simp [afterFirstColonInLine, hc, hn]
      · rw [afterFirstColonInLine, if_neg hc, if_neg hn]
        apply ih
        intro x hx
        apply h
        have hcn : c ≠ '\n' := fun he => hn (Or.inl he)
        have ht : List.takeWhile notNl (c :: rest) =
            c :: List.takeWhile notNl rest := by
          simp [List.takeWhile_cons, notNl, hcn]
        rw [ht]
        exact List.mem_cons_of_mem c hx

/-- C10: when an opener matches at the start of the input but the first
line contains no colon, the preamble-strip pattern removes nothing — even
when a colon appears on a later line. -/
theorem c10_preamble_first_line_colon (l : List Char)
    (hmatch : matchOpenerRem l ≠ none)
    (hcolon : ∀ c ∈ l.takeWhile notNl, c ≠ ':') :
    stripPreamble l = l := by
  cases hfind : preambleOpeners.find? (fun o => ciIsPrefixOf o l) with
  | none =>
    exfalso
    apply hmatch
    unfold matchOpenerRem
    rw [hfind]
    rfl
  | some o =>
    have hmem : o ∈ preambleOpeners := List.mem_of_find?_eq_some hfind
    have hpref : ciIsPrefixOf o l = true := by
      have := List.find?_some hfind
      simpa using this
    obtain ⟨hmap, hlen⟩ := ciIsPrefixOf_spec o l hpref
    have hops : ∀ o ∈ preambleOpeners,
        ':' ∉ o.map jsToLower ∧ '\n' ∉ o.map jsToLower := by decide
    have htake : ∀ c ∈ l.take o.length, c ≠ ':' ∧ c ≠ '\n' := by
      intro c hc
      constructor
      · intro he
        subst he
        apply (hops o hmem).1
        rw [← hmap]
        have hfix : jsToLower ':' = ':' := by decide
        exact hfix ▸ List.mem_map_of_mem jsToLower hc
      · intro he
        subst he
        apply (hops o hmem).2
        rw [← hmap]
        have hfix : jsToLower '\n' = '\n' := by decide
        exact hfix ▸ List.mem_map_of_mem jsToLower hc
    have hl : l.take o.length ++ l.drop o.length = l := List.take_append_drop _ _
    have htw : l.takeWhile notNl =
        l.take o.length ++ (l.drop o.length).takeWhile notNl := by
      conv_lhs => rw [← hl]
      apply takeWhile_append_all
      intro c hc
      simp [notNl, (htake c hc).2]
    have hcr : ∀ c ∈ (l.drop o.length).takeWhile notNl, c ≠ ':' := by
      intro c hc
      apply hcolon
      rw [htw]
      exact List.mem_append_right _ hc
    have hafc : afterFirstColonInLine (l.drop o.length) = none :=
      afterFirstColonInLine_none _ hcr
    unfold stripPreamble matchOpenerRem
    rw [hfind]
    simp [hafc]

/-- C10 (witness): "Here is the message\nfix: correct" matches the opener
"Here is", has no colon on its first line (the colon sits on line two), and
is left unchanged by the preamble strip. -/
theorem c10_preamble_first_line_colon_witness :
    stripPreamble "Here is the message\nfix: correct".data =
      "Here is the message\nfix: correct".data :=
  c10_preamble_first_line_colon "Here is the message\nfix: correct".data
    (by decide) (by decide)

/-! ## Claim C2: sanitizer idempotence

The sanitizer is not idempotent: stripping a code fence can expose a
preamble that only the second pass removes.  The amended statement is the
spec's own parenthetical reading — idempotence holds exactly when no strip
pattern re-matches the cleaned output.  The lemmas below build up to the
stability of the conventional-commit extraction step under re-sanitising. -/

/-- C2 (counterexample): on the fenced input below, the first pass strips
the fences and exposes a "This is … :" preamble, which the second pass
strips, so applying the sanitizer twice differs from applying it once. -/
theorem c2_sanitize_idem_counterexample :
    sanitize (CommitPreferences.mk false CommitStyle.concise)
        (sanitize (CommitPreferences.mk false CommitStyle.concise)
          "```\nThis is a fix: something\n```") ≠
      sanitize (CommitPreferences.mk false CommitStyle.concise)
        "```\nThis is a fix: something\n```" := by decide

theorem dropWhile_append_of_nil {α : Type} (p : α → Bool) :
    ∀ (l₁ l₂ : List α), l₁.dropWhile p = [] →
      (l₁ ++ l₂).dropWhile p = l₂.dropWhile p := by
  intro l₁
  induction l₁ with
  | nil => intro l₂ _; simp
  | cons a as ih =>
    intro l₂ h
    cases hpa : p a with
    | true =>
      simp only [List.dropWhile_cons, hpa, if_true] at h
      simp only [List.cons_append, List.dropWhile_cons, hpa, if_true]
      exact ih l₂ h
    | false => simp [List.dropWhile_cons, hpa] at h

theorem dropWhile_append_of_ne_nil {α : Type} (p : α → Bool) :
    ∀ (l₁ l₂ : List α), l₁.dropWhile p ≠ [] →
      (l₁ ++ l₂).dropWhile p = l₁.dropWhile p ++ l₂ := by
  intro l₁
  induction l₁ with
  | nil => intro l₂ h; simp at h
  | cons a as ih =>
    intro l₂ h
    cases hpa : p a with
    | true =>
      simp only [List.dropWhile_cons, hpa, if_true] at h
      simp only [List.cons_append, List.dropWhile_cons, hpa, if_true]
      exact ih l₂ h
    | false => simp [List.dropWhile_cons, hpa]

theorem rdropWhile_cons_of_ne_nil {α : Type} (p : α → Bool) (a : α)
    (l : List α) (h : List.rdropWhile p l ≠ []) :
    List.rdropWhile p (a :: l) = a :: List.rdropWhile p l := by
  have hdw : (l.reverse).dropWhile p ≠ [] := by
    intro he
    apply h
    unfold List.rdropWhile
    rw [he, List.reverse_nil]
  unfold List.rdropWhile
  rw [show (a :: l).reverse = l.reverse ++ [a] from by simp]
  rw [dropWhile_append_of_ne_nil p _ _ hdw]
  simp

theorem rdropWhile_cons_of_neg {α : Type} (p : α → Bool) (a : α)
    (l : List α) (h : p a = false) :
    List.rdropWhile p (a :: l) = a :: List.rdropWhile p l := by
  by_cases hnil : List.rdropWhile p l = []
  · have hdw : (l.reverse).dropWhile p = [] := by
      rw [List.dropWhile_eq_nil_iff]
      intro x hx
      exact List.rdropWhile_eq_nil_iff.mp hnil x (List.mem_reverse.mp hx)
    unfold List.rdropWhile
    rw [show (a :: l).reverse = l.reverse ++ [a] from by simp]
    rw [dropWhile_append_of_nil p _ _ hdw]
    simp [List.dropWhile_cons, h, hdw]
  · exact rdropWhile_cons_of_ne_nil p a l hnil

theorem dropWhile_rdropWhile_comm {α : Type} (p : α → Bool) :
    ∀ l : List α, (List.rdropWhile p l).dropWhile p =
      List.rdropWhile p (l.dropWhile p) := by
  intro l
  induction l with
  | nil => simp [List.rdropWhile]
  | cons a as ih =>
    cases hpa : p a with
    | false =>
      rw [rdropWhile_cons_of_neg p a as hpa]
      simp [List.dropWhile_cons, hpa, rdropWhile_cons_of_neg p a as hpa]
    | true =>
      by_cases hnil : List.rdropWhile p as = []
      · have h1 : List.rdropWhile p (a :: as) = [] := by
          rw [List.rdropWhile_eq_nil_iff] at hnil ⊢
          intro x hx
          rcases List.mem_cons.mp hx with hxa | hxm
          · subst hxa; exact hpa
          · exact hnil x hxm
        rw [h1]
        have h2 : (a :: as).dropWhile p = as.dropWhile p := by
          simp [List.dropWhile_cons, hpa]
        rw [h2, ← ih, hnil]
      · rw [rdropWhile_cons_of_ne_nil p a as hnil]
        have h2 : (a :: as).dropWhile p = as.dropWhile p := by
          simp [List.dropWhile_cons, hpa]
        rw [h2, ← ih]
        simp [List.dropWhile_cons, hpa]

theorem jsTrim_idem (l : List Char) : jsTrim (jsTrim l) = jsTrim l := by
  unfold jsTrim
  rw [dropWhile_rdropWhile_comm, List.dropWhile_idempotent,
    List.rdropWhile_idempotent]

theorem jsTrim_dropWhile (l : List Char) :
    jsTrim (l.dropWhile isJsWs) = jsTrim l := by
  unfold jsTrim
  rw [List.dropWhile_idempotent]

theorem jsTrim_rdropWhile (l : List Char) :
    jsTrim (List.rdropWhile isJsWs l) = jsTrim l := by
  unfold jsTrim
  rw [dropWhile_rdropWhile_comm, List.rdropWhile_idempotent]

theorem splitLines_ne_nil : ∀ l : List Char, splitLines l ≠ [] := by
  intro l
  cases l with
  | nil => simp [splitLines]
  | cons c rest =>
    by_cases hc : c = '\n'
    · simp [splitLines, hc]
    · simp only [splitLines, hc, if_false]
      cases splitLines rest <;> simp

theorem splitLines_dest (l : List Char) : ∃ h t, splitLines l = h :: t := by
  cases hsp : splitLines l with
  | nil => exact absurd hsp (splitLines_ne_nil l)
  | cons h t => exact ⟨h, t, rfl⟩

theorem splitLines_cons_nl (l : List Char) :
    splitLines ('\n' :: l) = [] :: splitLines l := by
  simp [splitLines]

theorem splitLines_cons_of_ne (c : Char) (l : List Char) (hc : c ≠ '\n')
    (h : List Char) (t : List (List Char)) (hl : splitLines l = h :: t) :
    splitLines (c :: l) = (c :: h) :: t := by
  simp [splitLines, hc, hl]

theorem splitLines_no_nl : ∀ (l : List Char), ∀ u ∈ splitLines l, '\n' ∉ u := by
  intro l
  induction l with
  | nil =>
    intro u hu
    simp [splitLines] at hu
    subst hu
    simp
  | cons c rest ih =>
    intro u hu
    by_cases hc : c = '\n'
    · subst hc
      rw [splitLines_cons_nl] at hu
      rcases List.mem_cons.mp hu with h | h
      · subst h; simp
      · exact ih u h
    · obtain ⟨h, t, hl⟩ := splitLines_dest rest
      rw [splitLines_cons_of_ne c rest hc h t hl] at hu
      have hhm : h ∈ splitLines rest := by
        rw [hl]; exact List.mem_cons_self h t
      rcases List.mem_cons.mp hu with hch | hm
      · subst hch
        intro hmem
        rcases List.mem_cons.mp hmem with he | hm2
        · exact hc he.symm
        · exact ih h hhm hm2
      · have hum : u ∈ splitLines rest := by
          rw [hl]; exact List.mem_cons_of_mem h hm
        exact ih u hum

theorem joinLines_splitLines : ∀ l : List Char, joinLines (splitLines l) = l := by
  intro l
  induction l with
  | nil => rfl
  | cons c rest ih =>
    by_cases hc : c = '\n'
    · subst hc
      obtain ⟨h, t, hl⟩ := splitLines_dest rest
      rw [splitLines_cons_nl, hl]
      show [] ++ '\n' :: joinLines (h :: t) = '\n' :: rest
      rw [← hl, ih]
      rfl
    · obtain ⟨h, t, hl⟩ := splitLines_dest rest
      rw [splitLines_cons_of_ne c rest hc h t hl]
      rw [hl] at ih
      cases t with
      | nil =>
        have hh : h = rest := ih
        rw [hh]
        rfl
      | cons t0 ts =>
        calc joinLines ((c :: h) :: t0 :: ts)
            = (c :: h) ++ '\n' :: joinLines (t0 :: ts) := rfl
          _ = c :: (h ++ '\n' :: joinLines (t0 :: ts)) := by simp
          _ = c :: joinLines (h :: t0 :: ts) := rfl
          _ = c :: rest := by rw [ih]

theorem splitLines_of_no_nl : ∀ l : List Char, '\n' ∉ l → splitLines l = [l] := by
  intro l
  induction l with
  | nil => intro _; rfl
  | cons c rest ih =>
    intro h
    have hc : c ≠ '\n' := by
      intro he
      subst he
      exact h (List.mem_cons_self _ _)
    have hrest : '\n' ∉ rest := fun hm => h (List.mem_cons_of_mem c hm)
    rw [splitLines_cons_of_ne c rest hc rest [] (ih hrest)]

theorem splitLines_append_nl : ∀ (h : List Char), '\n' ∉ h → ∀ t : List Char,
    splitLines (h ++ '\n' :: t) = h :: splitLines t := by
  intro h
  induction h with
  | nil =>
    intro _ t
    rw [List.nil_append, splitLines_cons_nl]
  | cons c cs ih =>
    intro hnl t
    have hc : c ≠ '\n' := by
      intro he
      subst he
      exact hnl (List.mem_cons_self _ _)
    have hcs : '\n' ∉ cs := fun hm => hnl (List.mem_cons_of_mem c hm)
    rw [List.cons_append,
      splitLines_cons_of_ne c _ hc cs (splitLines t) (ih hcs t)]

theorem length_splitLines : ∀ l : List Char,
    (splitLines l).length = l.count '\n' + 1 := by
  intro l
  induction l with
  | nil => rfl
  | cons c rest ih =>
    by_cases hc : c = '\n'
    · subst hc
      rw [splitLines_cons_nl]
      simp only [List.length_cons, ih, List.count_cons, beq_self_eq_true,
        if_true]
    · obtain ⟨h, t, hl⟩ := splitLines_dest rest
      rw [splitLines_cons_of_ne c rest hc h t hl]
      rw [hl] at ih
      have hcount : (c :: rest).count '\n' = rest.count '\n' := by
        simp [List.count_cons, hc]
      simp only [List.length_cons] at ih ⊢
      rw [hcount]
      omega

theorem jsTrim_sublist (l : List Char) : List.Sublist (jsTrim l) l := by
  unfold jsTrim
  exact ((List.rdropWhile_prefix isJsWs _).sublist).trans
    ((List.dropWhile_suffix isJsWs).sublist)

theorem length_splitLines_jsTrim_le (l : List Char) :
    (splitLines (jsTrim l)).length ≤ (splitLines l).length := by
  rw [length_splitLines, length_splitLines]
  have := (jsTrim_sublist l).count_le '\n'
  omega

/-- Append one character to the last line of a line list. -/
def snocLast (c : Char) : List (List Char) → List (List Char)
  | [] => [[c]]
  | [l] => [l ++ [c]]
  | l :: ls => l :: snocLast c ls

theorem snocLast_cons (c : Char) (l : List Char) (ls : List (List Char))
    (h : ls ≠ []) : snocLast c (l :: ls) = l :: snocLast c ls := by
  cases ls with
  | nil => exact absurd rfl h
  | cons a as => rfl

theorem snocLast_append (c : Char) :
    ∀ (L : List (List Char)) (x : List Char),
      snocLast c (L ++ [x]) = L ++ [x ++ [c]] := by
  intro L
  induction L with
  | nil => intro x; rfl
  | cons a as ih =>
    intro x
    have hne : as ++ [x] ≠ [] := by simp
    rw [List.cons_append, snocLast_cons c a (as ++ [x]) hne, ih]
    rfl

theorem splitLines_concat (c : Char) : ∀ w : List Char,
    splitLines (w ++ [c]) =
      if c = '\n' then splitLines w ++ [[]] else snocLast c (splitLines w) := by
  intro w
  induction w with
  | nil =>
    by_cases hc : c = '\n'
    · subst hc
      rw [List.nil_append, splitLines_cons_nl, if_pos rfl]
      rfl
    · rw [List.nil_append, if_neg hc]
      have hnl : '\n' ∉ [c] := by
        simp only [List.mem_singleton]
        exact fun he => hc he.symm
      rw [splitLines_of_no_nl [c] hnl]
      rfl
  | cons a w' ih =>
    by_cases ha : a = '\n'
    · subst ha
      rw [List.cons_append, splitLines_cons_nl, splitLines_cons_nl]
      by_cases hc : c = '\n'
      · rw [if_pos hc] at ih ⊢
        rw [ih]
        rfl
      · rw [if_neg hc] at ih ⊢
        rw [ih]
        obtain ⟨h, t, hl⟩ := splitLines_dest w'
        rw [hl, snocLast_cons c [] (h :: t) (by simp)]
    · rw [List.cons_append]
      obtain ⟨h2, t2, hl2⟩ := splitLines_dest (w' ++ [c])
      rw [splitLines_cons_of_ne a _ ha h2 t2 hl2]
      obtain ⟨h, t, hl⟩ := splitLines_dest w'
      rw [splitLines_cons_of_ne a _ ha h t hl]
      rw [hl2, hl] at ih
      by_cases hc : c = '\n'
      · rw [if_pos hc] at ih ⊢
        rw [List.cons_append] at ih
        injection ih with ih1 ih2
        subst ih1
        subst ih2
        rfl
      · rw [if_neg hc] at ih ⊢
        cases t with
        | nil =>
          have hsnoc : snocLast c [h] = [h ++ [c]] := rfl
          rw [hsnoc] at ih
          injection ih with ih1 ih2
          subst ih1
          subst ih2
          rfl
        | cons t0 ts =>
          rw [snocLast_cons c h (t0 :: ts) (by simp)] at ih
          injection ih with ih1 ih2
          rw [snocLast_cons c (a :: h) (t0 :: ts) (by simp), ih1, ih2]

theorem splitLines_reverse : ∀ l : List Char,
    splitLines l.reverse = ((splitLines l).map List.reverse).reverse := by
  intro l
  induction l with
  | nil => rfl
  | cons c l' ih =>
    rw [List.reverse_cons, splitLines_concat]
    by_cases hc : c = '\n'
    · subst hc
      rw [if_pos rfl, ih, splitLines_cons_nl]
      simp
    · rw [if_neg hc, ih]
      obtain ⟨h, t, hl⟩ := splitLines_dest l'
      rw [splitLines_cons_of_ne c l' hc h t hl, hl]
      rw [List.map_cons, List.map_cons, List.reverse_cons, List.reverse_cons]
      rw [snocLast_append]
      simp

theorem jsTrim_reverse (l : List Char) :
    jsTrim l.reverse = (jsTrim l).reverse := by
  have h1 : ∀ m : List Char, (m.reverse).dropWhile isJsWs =
      (List.rdropWhile isJsWs m).reverse := by
    intro m
    unfold List.rdropWhile
    rw [List.reverse_reverse]
  have h2 : ∀ m : List Char, List.rdropWhile isJsWs (m.reverse) =
      (m.dropWhile isJsWs).reverse := by
    intro m
    unfold List.rdropWhile
    rw [List.reverse_reverse]
  unfold jsTrim
  rw [h1, h2, dropWhile_rdropWhile_comm]

theorem mem_splitLines_dropWhile : ∀ (l : List Char),
    ∀ u ∈ splitLines (l.dropWhile isJsWs),
      ∃ v ∈ splitLines l, jsTrim u = jsTrim v := by
  intro l
  induction l with
  | nil => intro u hu; exact ⟨u, hu, rfl⟩
  | cons c rest ih =>
    intro u hu
    cases hws : isJsWs c with
    | false =>
      simp only [List.dropWhile_cons, hws] at hu
      exact ⟨u, by simpa using hu, rfl⟩
    | true =>
      obtain ⟨v, hv, he⟩ := ih u (by simpa [List.dropWhile_cons, hws] using hu)
      by_cases hc : c = '\n'
      · subst hc
        exact ⟨v, by rw [splitLines_cons_nl]; exact List.mem_cons_of_mem _ hv, he⟩
      · obtain ⟨h, t, hl⟩ := splitLines_dest rest
        rw [hl] at hv
        rcases List.mem_cons.mp hv with hvh | hvt
        · subst hvh
          refine ⟨c :: v, ?_, ?_⟩
          · rw [splitLines_cons_of_ne c rest hc v t hl]
            exact List.mem_cons_self _ _
          · rw [he]
            unfold jsTrim
            rw [List.dropWhile_cons]
            simp [hws]
        · refine ⟨v, ?_, he⟩
          rw [splitLines_cons_of_ne c rest hc h t hl]
          exact List.mem_cons_of_mem _ hvt

theorem mem_splitLines_rdropWhile (l : List Char) :
    ∀ u ∈ splitLines (List.rdropWhile isJsWs l),
      ∃ v ∈ splitLines l, jsTrim u = jsTrim v := by
  intro u hu
  have hdef : List.rdropWhile isJsWs l = ((l.reverse).dropWhile isJsWs).reverse :=
    rfl
  rw [hdef, splitLines_reverse, List.mem_reverse] at hu
  obtain ⟨u', hu', hue⟩ := List.mem_map.mp hu
  obtain ⟨v', hv', hve⟩ := mem_splitLines_dropWhile l.reverse u' hu'
  rw [splitLines_reverse, List.mem_reverse] at hv'
  obtain ⟨v, hv, hvev⟩ := List.mem_map.mp hv'
  refine ⟨v, hv, ?_⟩
  calc jsTrim u = jsTrim u'.reverse := by rw [hue]
    _ = (jsTrim u').reverse := jsTrim_reverse u'
    _ = (jsTrim v').reverse := by rw [hve]
    _ = (jsTrim v.reverse).reverse := by rw [hvev]
    _ = ((jsTrim v).reverse).reverse := by rw [jsTrim_reverse]
    _ = jsTrim v := List.reverse_reverse _

theorem mem_splitLines_jsTrim (l : List Char) :
    ∀ u ∈ splitLines (jsTrim l), ∃ v ∈ splitLines l, jsTrim u = jsTrim v := by
  intro u hu
  have hu' : u ∈ splitLines (List.rdropWhile isJsWs (l.dropWhile isJsWs)) := hu
  obtain ⟨v1, hv1, he1⟩ :=
    mem_splitLines_rdropWhile (l.dropWhile isJsWs) u hu'
  obtain ⟨v, hv, he2⟩ := mem_splitLines_dropWhile l v1 hv1
  exact ⟨v, hv, he1.trans he2⟩

theorem rdropWhile_append_of_nil {α : Type} (p : α → Bool) (l₁ l₂ : List α)
    (h : List.rdropWhile p l₂ = []) :
    List.rdropWhile p (l₁ ++ l₂) = List.rdropWhile p l₁ := by
  have hdw : (l₂.reverse).dropWhile p = [] := by
    have := congrArg List.reverse h
    unfold List.rdropWhile at this
    simpa using this
  unfold List.rdropWhile
  rw [List.reverse_append, dropWhile_append_of_nil p _ _ hdw]

theorem rdropWhile_append_of_ne_nil {α : Type} (p : α → Bool) (l₁ l₂ : List α)
    (h : List.rdropWhile p l₂ ≠ []) :
    List.rdropWhile p (l₁ ++ l₂) = l₁ ++ List.rdropWhile p l₂ := by
  have hdw : (l₂.reverse).dropWhile p ≠ [] := by
    intro he
    apply h
    unfold List.rdropWhile
    rw [he, List.reverse_nil]
  unfold List.rdropWhile
  rw [List.reverse_append, dropWhile_append_of_ne_nil p _ _ hdw,
    List.reverse_append, List.reverse_reverse]

theorem findIdxJs_eq_none_iff {α : Type} (p : α → Bool) :
    ∀ L : List α, findIdxJs p L = none ↔ ∀ a ∈ L, p a = false := by
  intro L
  induction L with
  | nil => simp [findIdxJs]
  | cons a as ih =>
    by_cases hpa : p a = true
    · simp [findIdxJs, hpa]
    · have hpa' : p a = false := by simpa using hpa
      simp [findIdxJs, hpa', ih]

theorem findIdxJs_cons_of_pos {α : Type} (p : α → Bool) (a : α) (L : List α)
    (h : p a = true) : findIdxJs p (a :: L) = some 0 := by
  simp [findIdxJs, h]

theorem findIdxJs_some_drop {α : Type} (p : α → Bool) :
    ∀ (L : List α) (i : Nat), findIdxJs p L = some i →
      ∃ a t, L.drop i = a :: t ∧ p a = true := by
  intro L
  induction L with
  | nil => intro i h; simp [findIdxJs] at h
  | cons a as ih =>
    intro i h
    by_cases hpa : p a = true
    · rw [findIdxJs_cons_of_pos p a as hpa] at h
      injection h with h0
      exact ⟨a, as, by rw [← h0]; rfl, hpa⟩
    · have hpa' : p a = false := by simpa using hpa
      simp only [findIdxJs, hpa', if_false, Bool.false_eq_true] at h
      cases hfi : findIdxJs p as with
      | none => rw [hfi] at h; simp at h
      | some j =>
        rw [hfi] at h
        simp at h
        obtain ⟨b, t, hd, hb⟩ := ih j hfi
        refine ⟨b, t, ?_, hb⟩
        rw [← h]
        simpa using hd

theorem isConvLine_congr (a b : List Char) (h : jsTrim a = jsTrim b) :
    isConvLine a = isConvLine b := by
  unfold isConvLine
  rw [h]

theorem isConvLine_jsTrim (l : List Char) :
    isConvLine (jsTrim l) = isConvLine l :=
  isConvLine_congr _ _ (jsTrim_idem l)

theorem isConvLine_dropWhile_ne_nil (l : List Char) (h : isConvLine l = true) :
    l.dropWhile isJsWs ≠ [] := by
  intro he
  have hjt : jsTrim l = [] := by
    unfold jsTrim
    rw [he]
    rfl
  unfold isConvLine at h
  rw [hjt] at h
  exact absurd h (by decide)

theorem conv_head_join (h : List Char) (t : List (List Char))
    (hnl : '\n' ∉ h) (hconv : isConvLine h = true) :
    ∃ fl rest, splitLines (jsTrim (joinLines (h :: t))) = fl :: rest ∧
      isConvLine fl = true := by
  cases t with
  | nil =>
    have hj : joinLines [h] = h := rfl
    rw [hj]
    have hnl' : '\n' ∉ jsTrim h := fun hm => hnl ((jsTrim_sublist h).subset hm)
    rw [splitLines_of_no_nl _ hnl']
    exact ⟨jsTrim h, [], rfl, by rw [isConvLine_jsTrim]; exact hconv⟩
  | cons t0 ts =>
    have hj : joinLines (h :: t0 :: ts) = h ++ '\n' :: joinLines (t0 :: ts) := rfl
    rw [hj]
    have hne : h.dropWhile isJsWs ≠ [] := isConvLine_dropWhile_ne_nil h hconv
    have hnl2 : '\n' ∉ h.dropWhile isJsWs :=
      fun hm => hnl ((List.dropWhile_suffix isJsWs).subset hm)
    unfold jsTrim
    rw [dropWhile_append_of_ne_nil isJsWs h _ hne]
    by_cases hrd : List.rdropWhile isJsWs ('\n' :: joinLines (t0 :: ts)) = []
    · rw [rdropWhile_append_of_nil isJsWs _ _ hrd]
      have hnlt : '\n' ∉ List.rdropWhile isJsWs (h.dropWhile isJsWs) :=
        fun hm => hnl2 ((List.rdropWhile_prefix isJsWs _).subset hm)
      rw [splitLines_of_no_nl _ hnlt]
      refine ⟨_, [], rfl, ?_⟩
      show isConvLine (jsTrim h) = true
      rw [isConvLine_jsTrim]
      exact hconv
    · have hrdT : List.rdropWhile isJsWs (joinLines (t0 :: ts)) ≠ [] := by
        intro he
        apply hrd
        rw [List.rdropWhile_eq_nil_iff] at he ⊢
        intro x hx
        rcases List.mem_cons.mp hx with h1 | h1
        · subst h1; rfl
        · exact he x h1
      rw [rdropWhile_append_of_ne_nil isJsWs _ _ hrd]
      rw [rdropWhile_cons_of_ne_nil isJsWs '\n' _ hrdT]
      rw [splitLines_append_nl _ hnl2 _]
      refine ⟨h.dropWhile isJsWs, _, rfl, ?_⟩
      rw [isConvLine_congr (h.dropWhile isJsWs) h (jsTrim_dropWhile h)]
      exact hconv

theorem extractConv_of_conv_false (l : List Char) :
    extractConv false l = l := by
  simp [extractConv]

theorem extractConv_of_le (conv : Bool) (l : List Char)
    (h : ¬ 3 < (splitLines l).length) : extractConv conv l = l := by
  simp [extractConv, h]

theorem extractConv_of_none (conv : Bool) (l : List Char)
    (h : findIdxJs isConvLine (splitLines l) = none) :
    extractConv conv l = l := by
  simp [extractConv, h]

theorem extractConv_of_zero (conv : Bool) (l : List Char)
    (h : findIdxJs isConvLine (splitLines l) = some 0) :
    extractConv conv l = l := by
  simp [extractConv, h]

theorem extractConv_stable (conv : Bool) (c : List Char) :
    extractConv conv (jsTrim (extractConv conv c)) =
      jsTrim (extractConv conv c) := by
  cases conv with
  | false => rw [extractConv_of_conv_false, extractConv_of_conv_false]
  | true =>
    by_cases hlen : 3 < (splitLines c).length
    · cases hfi : findIdxJs isConvLine (splitLines c) with
      | none =>
        rw [extractConv_of_none true c hfi]
        apply extractConv_of_none
        rw [findIdxJs_eq_none_iff]
        intro u hu
        obtain ⟨v, hv, he⟩ := mem_splitLines_jsTrim c u hu
        have hvfalse := (findIdxJs_eq_none_iff isConvLine (splitLines c)).mp hfi v hv
        rw [← isConvLine_jsTrim u, he, isConvLine_jsTrim v]
        exact hvfalse
      | some idx =>
        by_cases hidx : 0 < idx
        · obtain ⟨a, t, hdrop, hconv⟩ :=
            findIdxJs_some_drop isConvLine (splitLines c) idx hfi
          have hext : extractConv true c =
              jsTrim (joinLines ((splitLines c).drop idx)) := by
            simp [extractConv, hlen, hfi, hidx]
          rw [hext, jsTrim_idem, hdrop]
          have hnl : '\n' ∉ a := by
            apply splitLines_no_nl c
            have : a ∈ (splitLines c).drop idx := by
              rw [hdrop]; exact List.mem_cons_self _ _
            exact List.mem_of_mem_drop this
          obtain ⟨fl, rest, hsp, hfl⟩ := conv_head_join a t hnl hconv
          apply extractConv_of_zero
          rw [hsp]
          exact findIdxJs_cons_of_pos _ fl rest hfl
        · have hidx0 : idx = 0 := by omega
          subst hidx0
          rw [extractConv_of_zero true c hfi]
          obtain ⟨h0, t0, hdrop, hconv⟩ :=
            findIdxJs_some_drop isConvLine (splitLines c) 0 hfi
          rw [List.drop_zero] at hdrop
          have hnl : '\n' ∉ h0 := by
            apply splitLines_no_nl c
            rw [hdrop]
            exact List.mem_cons_self _ _
          have hc_eq : c = joinLines (h0 :: t0) := by
            rw [← hdrop, joinLines_splitLines]
          obtain ⟨fl, rest, hsp, hfl⟩ := conv_head_join h0 t0 hnl hconv
          rw [hc_eq]
          apply extractConv_of_zero
          rw [hsp]
          exact findIdxJs_cons_of_pos _ fl rest hfl
    · rw [extractConv_of_le true c hlen]
      apply extractConv_of_le
      intro hgt
      exact hlen (lt_of_lt_of_le hgt (length_splitLines_jsTrim_le c))

/-- C2 (amended): for every string and every fixed preferences value, if no
strip pattern re-matches the sanitized output — i.e. the pattern pipeline
leaves `sanitize prefs x` unchanged — then the sanitizer is idempotent:
`sanitize (sanitize x) = sanitize x`.  The trims and the
conventional-commit extraction never re-fire on sanitized output; only a
pattern re-match (as in the counterexample) can break idempotence. -/
theorem c2_sanitize_idem (prefs : CommitPreferences) (x : String)
    (h : sanitizePatterns (sanitize prefs x).data = (sanitize prefs x).data) :
    sanitize prefs (sanitize prefs x) = sanitize prefs x := by
  have hdata : (sanitize prefs x).data =
      sanitizeList prefs.useConventionalCommits x.data := rfl
  show String.mk (sanitizeList prefs.useConventionalCommits
      (sanitize prefs x).data) = sanitize prefs x
  rw [hdata] at h ⊢
  set conv := prefs.useConventionalCommits with hconv
  set y := sanitizeList conv x.data with hy
  have hytrim : jsTrim y = y := by
    rw [hy]
    unfold sanitizeList
    rw [jsTrim_idem]
  have hyext : extractConv conv y = y := by
    rw [hy]
    unfold sanitizeList
    exact extractConv_stable conv _
  have hfix : sanitizeList conv y = y := by
    unfold sanitizeList
    rw [hytrim, h, hyext, hytrim]
  rw [hfix]
  rfl

/-- C2 (witness): a clean conventional-commit message sanitizes to itself
and re-sanitizing it changes nothing. -/
theorem c2_sanitize_idem_witness :
    sanitize (CommitPreferences.mk true CommitStyle.concise)
        (sanitize (CommitPreferences.mk true CommitStyle.concise)
          "fix: adjust rounding") =
      sanitize (CommitPreferences.mk true CommitStyle.concise)
        "fix: adjust rounding" :=
  c2_sanitize_idem (CommitPreferences.mk true CommitStyle.concise)
    "fix: adjust rounding" (by decide)
